import Mathlib

/-!
Verification of the paper-trading core: the position/portfolio ledger
(`paper_trader.py`), the performance-metrics engine (`performance.py`) and the
capital allocator (`allocator.py`).  Python floats are modelled as exact
rationals (`ℚ`); `float('inf')` is modelled by the sentinel value `Pyfloat.inf`;
`math.sqrt` is modelled by `Real.sqrt`, so the metric functions that take a
square root return real numbers.  Python dictionaries keyed by unique ids are
modelled as association lists.
-/

/-- Position lifecycle status (`PositionStatus` in `paper_trader.py`). -/
inductive PositionStatus where
  | OPEN
  | CLOSED
  | EXPIRED
deriving DecidableEq

/-- A simulated position (`PaperPosition` in `paper_trader.py`).  Timestamps are
abstracted to natural numbers. -/
structure PaperPosition where
  id : String
  strategy_name : String
  market_id : String
  ticker : String
  side : String
  quantity : ℤ
  entry_price : ℚ
  entry_time : ℕ
  entry_cost : ℚ
  exit_price : Option ℚ := none
  exit_time : Option ℕ := none
  exit_value : Option ℚ := none
  status : PositionStatus := PositionStatus.OPEN
  metadata : List (String × String) := []
deriving DecidableEq

/-- Profit and loss of a position (`PaperPosition.pnl`): 0 while OPEN, otherwise
`exit_value - entry_cost` when an exit value is set. -/
def PaperPosition.pnl (p : PaperPosition) : ℚ :=
  if p.status = PositionStatus.OPEN then 0
  else match p.exit_value with
    | some v => v - p.entry_cost
    | none => 0

/-- A strategy's virtual account (`StrategyPortfolio` in `paper_trader.py`).
The open-position dict (keyed by position id) is an association list of
positions. -/
structure StrategyPortfolio where
  strategy_name : String
  initial_capital : ℚ
  current_capital : ℚ
  positions : List PaperPosition := []
  closed_positions : List PaperPosition := []
deriving DecidableEq

/-- Open positions of a portfolio (`StrategyPortfolio.open_positions`). -/
def StrategyPortfolio.open_positions (pf : StrategyPortfolio) : List PaperPosition :=
  pf.positions.filter (fun p => p.status == PositionStatus.OPEN)

/-- Total capital in open positions (`StrategyPortfolio.total_exposure`). -/
def StrategyPortfolio.total_exposure (pf : StrategyPortfolio) : ℚ :=
  (pf.open_positions.map (·.entry_cost)).sum

/-- Capital available for new positions (`StrategyPortfolio.available_capital`). -/
def StrategyPortfolio.available_capital (pf : StrategyPortfolio) : ℚ :=
  pf.current_capital - pf.total_exposure

/-- A Python float that may carry the `float('inf')` sentinel. -/
inductive Pyfloat where
  | fin (x : ℝ)
  | inf

/-- Winning trades (`wins = [t for t in trades if t.pnl > 0]` in
`PerformanceTracker.calculate_metrics`). -/
def winsOf (trades : List PaperPosition) : List PaperPosition :=
  trades.filter (fun t => decide (0 < t.pnl))

/-- Losing trades (`losses = [t for t in trades if t.pnl <= 0]`). -/
def lossesOf (trades : List PaperPosition) : List PaperPosition :=
  trades.filter (fun t => decide (t.pnl ≤ 0))

/-- Gross profit (`sum(t.pnl for t in wins) if wins else 0`). -/
def grossProfit (trades : List PaperPosition) : ℚ :=
  ((winsOf trades).map (·.pnl)).sum

/-- Gross loss (`abs(sum(t.pnl for t in losses)) if losses else 0`). -/
def grossLoss (trades : List PaperPosition) : ℚ :=
  |((lossesOf trades).map (·.pnl)).sum|

/-- Profit factor as computed in `PerformanceTracker.calculate_metrics`
(lines 254-257): `gross_profit / gross_loss if gross_loss > 0 else inf`. -/
def profitFactorCalc (trades : List PaperPosition) : Pyfloat :=
  if 0 < grossLoss trades then Pyfloat.fin ((grossProfit trades / grossLoss trades : ℚ) : ℝ)
  else Pyfloat.inf

/-- Per-trade returns (`returns = [t.pnl / initial_capital for t in trades]`). -/
def returnsOf (trades : List PaperPosition) (initial_capital : ℚ) : List ℚ :=
  trades.map (fun t => t.pnl / initial_capital)

/-- Mean of a list of rationals (`sum(returns) / len(returns)`). -/
def meanOf (l : List ℚ) : ℚ := l.sum / (l.length : ℚ)

/-- Population variance (`sum((r - mean_return) ** 2 for r in returns) / len(returns)`). -/
def popVariance (l : List ℚ) : ℚ :=
  ((l.map (fun r => (r - meanOf l) ^ 2)).sum) / (l.length : ℚ)

open Classical in
/-- Annualized Sharpe number (`PerformanceTracker._calculate_sharpe`).  Mirrors
the source: fewer than 2 trades gives 0; `std_return` is `sqrt(variance)` when
the variance is positive and 0 otherwise; a zero `std_return` gives 0; else
`(mean*2500 - rf) / (std * sqrt(2500))`. -/
noncomputable def calcSharpe (trades : List PaperPosition) (initial_capital : ℚ)
    (risk_free_rate : ℚ) : ℝ :=
  if trades.length < 2 then 0
  else
    let returns := returnsOf trades initial_capital
    let mean_return := meanOf returns
    let variance := popVariance returns
    let std_return : ℝ := if 0 < variance then Real.sqrt (variance : ℝ) else 0
    if std_return = 0 then 0
    else ((mean_return : ℝ) * 2500 - (risk_free_rate : ℝ)) / (std_return * Real.sqrt 2500)

open Classical in
/-- Sortino number (`PerformanceTracker._calculate_sortino`).  Mirrors the
source: fewer than 2 trades gives 0; no negative per-trade return gives
`float('inf')`; otherwise the downside variance divides by the full sample
size and the result is `(mean*2500 - rf) / (downside_std * sqrt(2500))`. -/
noncomputable def calcSortino (trades : List PaperPosition) (initial_capital : ℚ)
    (risk_free_rate : ℚ) : Pyfloat :=
  if trades.length < 2 then Pyfloat.fin 0
  else
    let returns := returnsOf trades initial_capital
    let mean_return := meanOf returns
    let negative_returns := returns.filter (fun r => decide (r < 0))
    if negative_returns = [] then Pyfloat.inf
    else
      let downside_variance := ((negative_returns.map (fun r => r ^ 2)).sum) / (returns.length : ℚ)
      let downside_std : ℝ := Real.sqrt (downside_variance : ℝ)
      if downside_std = 0 then Pyfloat.fin 0
      else Pyfloat.fin (((mean_return : ℝ) * 2500 - (risk_free_rate : ℝ)) /
        (downside_std * Real.sqrt 2500))

/-- The metric fields consumed by `CapitalAllocator.calculate_strategy_score`
(`StrategyMetrics` in `performance.py`, restricted to the fields that scoring
reads; float fields are exact rationals). -/
structure StrategyMetrics where
  sharpe_ratio : ℚ
  win_rate : ℚ
  profit_factor : ℚ
  max_drawdown : ℚ
  total_trades : ℕ
deriving DecidableEq

/-- Composite strategy score (`CapitalAllocator.calculate_strategy_score`,
lines 59-89), with the configured `performance_weight` and `risk_weight`
passed explicitly. -/
def calculateStrategyScore (performance_weight risk_weight : ℚ)
    (m : StrategyMetrics) : ℚ :=
  if m.total_trades < 3 then 0
  else
    let sharpe_score := max 0 (min 1 (m.sharpe_ratio / 2))
    let win_rate_score := m.win_rate / 100
    let profit_factor_score := max 0 (min 1 ((m.profit_factor - 1) / 2))
    let drawdown_penalty := min 1 (m.max_drawdown / 20)
    let performance_score :=
      0.4 * sharpe_score + 0.3 * win_rate_score + 0.3 * profit_factor_score
    max 0 (performance_weight * performance_score - risk_weight * drawdown_penalty)

/-- Clamp of `x` to the interval `[lo, hi]`, as used by the specification's
wording of the scoring formula. -/
def clamp (x lo hi : ℚ) : ℚ := max lo (min hi x)

/-- Modelled from the claim wording (not the source): the score formula as the
specification states it, with every component clamped to `[0, 1]`, for
comparison against `calculateStrategyScore`. -/
def scoreClaimFormula (performance_weight risk_weight : ℚ)
    (m : StrategyMetrics) : ℚ :=
  if m.total_trades < 3 then 0
  else
    max 0 (performance_weight *
      (0.4 * clamp (m.sharpe_ratio / 2) 0 1 +
       0.3 * clamp (m.win_rate / 100) 0 1 +
       0.3 * clamp ((m.profit_factor - 1) / 2) 0 1) -
      risk_weight * clamp (m.max_drawdown / 20) 0 1)

/-- One entry of the ranking list consumed by
`CapitalAllocator.calculate_allocations`: `rank_strategies` yields
`(name, score, metrics)` tuples sorted by score descending; of the metrics only
`total_trades` is read, and `current_capital` carries
`get_portfolio(name).current_capital` (0 when the portfolio is missing). -/
structure RankedEntry where
  name : String
  score : ℚ
  total_trades : ℕ
  current_capital : ℚ
deriving DecidableEq

/-- Result row of a capital allocation (`AllocationResult` in `allocator.py`). -/
structure AllocationResult where
  strategy_name : String
  current_capital : ℚ
  new_allocation : ℚ
  allocation_change : ℚ
  rank : ℕ
  score : ℚ
  reason : String
deriving DecidableEq

/-- Qualification filter of `calculate_allocations` (line 126-129): keep a
strategy when `score > 0` or its trade count is below
`min_trades_for_ranking`. -/
def qualifiedOf (rankings : List RankedEntry) (min_trades : ℕ) : List RankedEntry :=
  rankings.filter (fun e => decide (0 < e.score) || decide (e.total_trades < min_trades))

/-- Sum of the proposed allocations of a result list
(`sum(r.new_allocation for r in results)`). -/
def sumNewAlloc (results : List AllocationResult) : ℚ :=
  (results.map (·.new_allocation)).sum

/-- The equal-split branch of `calculate_allocations` (lines 131-145): no
strategy qualified, every strategy receives `total_capital / len(rankings)`. -/
def equalAllocation (rankings : List RankedEntry) (total_capital : ℚ) :
    List AllocationResult :=
  let per_strategy := total_capital / (rankings.length : ℚ)
  rankings.enum.map (fun ie =>
    { strategy_name := ie.2.name
      current_capital := ie.2.current_capital
      new_allocation := per_strategy
      allocation_change := per_strategy - ie.2.current_capital
      rank := ie.1 + 1
      score := ie.2.score
      reason := "equal_allocation_no_qualified" })

/-- The proportional branch of `calculate_allocations` (lines 147-188), before
the final renormalization: base allocation proportional to score (equal split
when the total score is 0), floored at 10% of an equal share and capped at 50%
of the total capital. -/
def proportionalAllocation (qualified : List RankedEntry) (total_capital : ℚ) :
    List AllocationResult :=
  let total_score := (qualified.map (·.score)).sum
  let min_allocation := (total_capital / (qualified.length : ℚ)) * 0.1
  qualified.enum.map (fun ie =>
    let e := ie.2
    let base_allocation :=
      if 0 < total_score then (e.score / total_score) * total_capital
      else total_capital / (qualified.length : ℚ)
    let new_allocation := min (max min_allocation base_allocation) (total_capital * 0.5)
    let reason :=
      if 0.5 ≤ e.score then "high_performer"
      else if 0.25 ≤ e.score then "moderate_performer"
      else if e.total_trades < 5 then "insufficient_history"
      else "low_performer"
    { strategy_name := e.name
      current_capital := e.current_capital
      new_allocation := new_allocation
      allocation_change := new_allocation - e.current_capital
      rank := ie.1 + 1
      score := e.score
      reason := reason })

/-- Rescaling of one result row by the factor `scale`
(`r.new_allocation *= scale; r.allocation_change = r.new_allocation - r.current_capital`). -/
def scaleResult (scale : ℚ) (r : AllocationResult) : AllocationResult :=
  { r with new_allocation := r.new_allocation * scale
           allocation_change := r.new_allocation * scale - r.current_capital }

/-- Capital allocation (`CapitalAllocator.calculate_allocations`, lines
111-198), over the ranking list that `rank_strategies` produces.  When the sum
of proposed allocations exceeds the total capital, every allocation is rescaled
by `total_capital / total_allocated` (lines 190-197). -/
def calculateAllocations (rankings : List RankedEntry) (total_capital : ℚ)
    (min_trades : ℕ) : List AllocationResult :=
  if rankings = [] then []
  else if qualifiedOf rankings min_trades = [] then equalAllocation rankings total_capital
  else if total_capital <
      sumNewAlloc (proportionalAllocation (qualifiedOf rankings min_trades) total_capital) then
    (proportionalAllocation (qualifiedOf rankings min_trades) total_capital).map
      (scaleResult (total_capital /
        sumNewAlloc (proportionalAllocation (qualifiedOf rankings min_trades) total_capital)))
  else proportionalAllocation (qualifiedOf rankings min_trades) total_capital

/-- Python's `int()` conversion of a rational: truncation toward zero. -/
def pyInt (q : ℚ) : ℤ := if 0 ≤ q then ⌊q⌋ else ⌈q⌉

/-- A trading signal (`Signal` in `strategies/base.py`), restricted to the
fields `execute_signal` reads. -/
structure Signal where
  strategy_name : String
  market_id : String
  side : String
  size : ℚ
  metadata : List (String × String) := []
deriving DecidableEq

/-- Risk management configuration (`RiskConfig` in `config.py`). -/
structure RiskConfig where
  max_total_capital : ℚ
  max_position_size : ℚ
  max_daily_loss : ℚ
  max_concurrent_positions : ℕ
  max_exposure_pct : ℚ
deriving DecidableEq

/-- The paper trading engine's state (`PaperTrader` in `paper_trader.py`): the
portfolio dict keyed by strategy name is an association list, plus the daily
realized P&L counter. -/
structure PaperTrader where
  risk : RiskConfig
  portfolios : List (String × StrategyPortfolio) := []
  daily_pnl : ℚ := 0
deriving DecidableEq

/-- Portfolio lookup (`PaperTrader.get_portfolio` / `self.portfolios.get`). -/
def PaperTrader.getPortfolio (t : PaperTrader) (name : String) :
    Option StrategyPortfolio :=
  (t.portfolios.find? (fun pr => pr.1 == name)).map (·.2)

/-- Replace the first portfolio stored under `name` by `f` of it, modelling an
in-place mutation of the object `self.portfolios[name]`. -/
def updatePortfolio (ps : List (String × StrategyPortfolio)) (name : String)
    (f : StrategyPortfolio → StrategyPortfolio) : List (String × StrategyPortfolio) :=
  match ps with
  | [] => []
  | pr :: rest =>
    if pr.1 = name then (pr.1, f pr.2) :: rest
    else pr :: updatePortfolio rest name f

/-- Sum of open exposure across all portfolios
(`sum(p.total_exposure for p in self.portfolios.values())`). -/
def totalExposureAll (t : PaperTrader) : ℚ :=
  (t.portfolios.map (fun pr => pr.2.total_exposure)).sum

/-- Count of open positions across all portfolios
(`sum(len(p.open_positions) for p in self.portfolios.values())`). -/
def totalOpenCount (t : PaperTrader) : ℕ :=
  (t.portfolios.map (fun pr => pr.2.open_positions.length)).sum

/-- The reason a risk-limit check rejects a trade, in the order the checks run
in `PaperTrader._check_risk_limits` (lines 329-378); the source logs the
reason and returns `False`. -/
inductive RiskReject where
  | insufficientCapital
  | positionTooLarge
  | exceedsExposure
  | maxPositions
  | dailyLoss
deriving DecidableEq

/-- Risk-limit checks (`PaperTrader._check_risk_limits`): the first failing
check, or `none` when the trade passes. -/
def checkRiskLimits (t : PaperTrader) (s : Signal) (portfolio : StrategyPortfolio) :
    Option RiskReject :=
  if portfolio.available_capital < s.size then some RiskReject.insufficientCapital
  else if t.risk.max_position_size < s.size then some RiskReject.positionTooLarge
  else if t.risk.max_total_capital * t.risk.max_exposure_pct < totalExposureAll t + s.size then
    some RiskReject.exceedsExposure
  else if t.risk.max_concurrent_positions ≤ totalOpenCount t then some RiskReject.maxPositions
  else if t.daily_pnl < -t.risk.max_daily_loss then some RiskReject.dailyLoss
  else none

/-- Insertion of a freshly opened position into its strategy's open map
(`portfolio.positions[position.id] = position`). -/
def insertPosition (t : PaperTrader) (name : String) (pos : PaperPosition) : PaperTrader :=
  let portfolios := updatePortfolio t.portfolios name
    (fun pf => { pf with positions := pf.positions ++ [pos] })
  { t with portfolios := portfolios }

/-- Execution of a trading signal (`PaperTrader.execute_signal`, lines
169-229).  The fresh uuid and the current time are passed as `newId` and
`now`.  Returns the created position (or `none` on rejection) together with
the new trader state. -/
def executeSignal (t : PaperTrader) (s : Signal) (market_price : ℚ) (now : ℕ)
    (newId : String) : Option PaperPosition × PaperTrader :=
  match t.getPortfolio s.strategy_name with
  | none => (none, t)
  | some portfolio =>
    match checkRiskLimits t s portfolio with
    | some _ => (none, t)
    | none =>
      let price := if s.side = "yes" then market_price else 1 - market_price
      let quantity : ℤ := if 0 < price then pyInt (s.size / price) else 0
      if quantity ≤ 0 then (none, t)
      else
        let entry_cost := (quantity : ℚ) * price
        let position : PaperPosition :=
          { id := newId
            strategy_name := s.strategy_name
            market_id := s.market_id
            ticker := s.market_id
            side := s.side
            quantity := quantity
            entry_price := price
            entry_time := now
            entry_cost := entry_cost
            metadata := s.metadata }
        (some position, insertPosition t s.strategy_name position)

/-- The closed copy of a position as `PaperTrader.close_position` (lines
253-262) writes it: exit price flipped for the "no" side, exit value
`quantity * price`, status CLOSED, close reason recorded in the metadata. -/
def closedVersion (p : PaperPosition) (exit_price : ℚ) (reason : String)
    (now : ℕ) : PaperPosition :=
  let price := if p.side = "yes" then exit_price else 1 - exit_price
  let exit_value := (p.quantity : ℚ) * price
  { p with exit_price := some price
           exit_time := some now
           exit_value := some exit_value
           status := PositionStatus.CLOSED
           metadata := p.metadata ++ [("close_reason", reason)] }

/-- The search loop of `close_position` (`for portfolio in
self.portfolios.values(): if position_id in portfolio.positions: ...`): find
the first portfolio holding the id, close the position there (add its pnl to
the portfolio's capital, append it to the closed list, delete it from the open
map), leave everything else unchanged. -/
def closeLoop (ps : List (String × StrategyPortfolio)) (position_id : String)
    (exit_price : ℚ) (reason : String) (now : ℕ) :
    Option PaperPosition × List (String × StrategyPortfolio) :=
  match ps with
  | [] => (none, [])
  | (n, pf) :: rest =>
    match pf.positions.find? (fun p => p.id == position_id) with
    | some position =>
      let closed := closedVersion position exit_price reason now
      (some closed,
        (n, { pf with
                current_capital := pf.current_capital + closed.pnl
                closed_positions := pf.closed_positions ++ [closed]
                positions := pf.positions.filter (fun q => !(q.id == position_id)) }) :: rest)
    | none =>
      let res := closeLoop rest position_id exit_price reason now
      (res.1, (n, pf) :: res.2)

/-- Closing a position (`PaperTrader.close_position`, lines 231-284): on
success the daily P&L counter also accumulates the position's pnl; an unknown
id returns `none` and changes nothing. -/
def closePosition (t : PaperTrader) (position_id : String) (exit_price : ℚ)
    (reason : String) (now : ℕ) : Option PaperPosition × PaperTrader :=
  match closeLoop t.portfolios position_id exit_price reason now with
  | (some pos, ps) =>
    (some pos, { t with portfolios := ps, daily_pnl := t.daily_pnl + pos.pnl })
  | (none, _) => (none, t)

/-- Whether any portfolio's open map holds a position with the given id. -/
def hasPosition (t : PaperTrader) (position_id : String) : Bool :=
  t.portfolios.any (fun pr => pr.2.positions.any (fun p => p.id == position_id))

/-- The ids of positions held open across a portfolio list. -/
def portfolioIds (ps : List (String × StrategyPortfolio)) : List String :=
  (ps.map (fun pr => pr.2.positions.map (·.id))).flatten

/-- All position ids held in the trader's open maps. -/
def positionIds (t : PaperTrader) : List String :=
  portfolioIds t.portfolios

/-- One public mutating call of the ledger: an `execute_signal` or a
`close_position`. -/
inductive TraderOp where
  | execOp (s : Signal) (market_price : ℚ) (now : ℕ) (newId : String)
  | closeOp (position_id : String) (exit_price : ℚ) (reason : String) (now : ℕ)

/-- The trader state after one ledger call. -/
def stepOp (t : PaperTrader) : TraderOp → PaperTrader
  | TraderOp.execOp s mp now newId => (executeSignal t s mp now newId).2
  | TraderOp.closeOp pid ep reason now => (closePosition t pid ep reason now).2

/-- The trader state after a finite sequence of ledger calls. -/
def runOps (t : PaperTrader) (ops : List TraderOp) : PaperTrader :=
  ops.foldl stepOp t

/-- A market snapshot as `check_exits` reads it: the dict entries
`market_data.get("market_id")` and `market_data.get("yes_price", 0.5)`, so both
keys may be absent. -/
structure MarketSnapshot where
  market_id : Option String
  yes_price : Option ℚ

/-- The reduced position view handed to a strategy's exit predicate
(`pos_dict` in `check_exits`, lines 312-316). -/
structure ExitView where
  entry_price : ℚ
  side : String
  metadata : List (String × String)
deriving DecidableEq

/-- Build the reduced view of a position. -/
def posView (p : PaperPosition) : ExitView :=
  { entry_price := p.entry_price, side := p.side, metadata := p.metadata }

/-- A strategy as `check_exits` consumes it: a name and an exit predicate
(`strategy.should_exit`). -/
structure Strategy where
  name : String
  should_exit : ExitView → MarketSnapshot → Bool

/-- One iteration of the `check_exits` loop over the open positions: skip a
position of another market, ask the exit predicate, close at the snapshot's
yes price (default 0.5) with reason "strategy_exit", collect the closed
position. -/
def exitStep (strategy : Strategy) (market_data : MarketSnapshot) (now : ℕ)
    (acc : List PaperPosition × PaperTrader) (position : PaperPosition) :
    List PaperPosition × PaperTrader :=
  if market_data.market_id ≠ some position.ticker then acc
  else if strategy.should_exit (posView position) market_data then
    match closePosition acc.2 position.id (market_data.yes_price.getD 0.5)
        "strategy_exit" now with
    | (some result, t) => (acc.1 ++ [result], t)
    | (none, t) => (acc.1, t)
  else acc

/-- Exit sweep for one strategy (`PaperTrader.check_exits`, lines 286-327):
iterate over a snapshot of the portfolio's open positions taken before the
loop, closing every position of the snapshot's market whose exit predicate
fires. -/
def checkExits (t : PaperTrader) (strategy : Strategy) (market_data : MarketSnapshot)
    (now : ℕ) : List PaperPosition × PaperTrader :=
  match t.getPortfolio strategy.name with
  | none => ([], t)
  | some portfolio =>
    portfolio.open_positions.foldl (exitStep strategy market_data now) ([], t)

/-- Whether a position object sits in some portfolio's open map. -/
def presentIn (ps : List (String × StrategyPortfolio)) (p : PaperPosition) : Prop :=
  ∃ pr ∈ ps, p ∈ pr.2.positions

/-- Concrete fixture: a closed winning trade (pnl 10). -/
def posA : PaperPosition :=
  { id := "a", strategy_name := "s", market_id := "M", ticker := "M", side := "yes",
    quantity := 20, entry_price := 0.5, entry_time := 0, entry_cost := 10,
    exit_price := some 1, exit_time := some 1, exit_value := some 20,
    status := PositionStatus.CLOSED }

/-- Concrete fixture: a closed losing trade (pnl -4). -/
def posB : PaperPosition :=
  { id := "b", strategy_name := "s", market_id := "M", ticker := "M", side := "yes",
    quantity := 20, entry_price := 0.5, entry_time := 0, entry_cost := 10,
    exit_price := some 0.3, exit_time := some 1, exit_value := some 6,
    status := PositionStatus.CLOSED }

/-- Concrete fixture: a closed break-even trade (pnl 0). -/
def posZero : PaperPosition :=
  { id := "z", strategy_name := "s", market_id := "M", ticker := "M", side := "yes",
    quantity := 10, entry_price := 0.5, entry_time := 0, entry_cost := 5,
    exit_price := some 0.5, exit_time := some 1, exit_value := some 5,
    status := PositionStatus.CLOSED }

/-- Concrete fixture: the ranking list of the specification's rebalance
example, scores [0.6, 0.3, 0] with the third strategy at 2 closed trades. -/
def exRankings : List RankedEntry :=
  [{ name := "s1", score := 0.6, total_trades := 10, current_capital := 0 },
   { name := "s2", score := 0.3, total_trades := 10, current_capital := 0 },
   { name := "s3", score := 0, total_trades := 2, current_capital := 0 }]

/-- Concrete fixture: the metrics input that separates the source's scoring
formula from the specification's clamped formula (win rate above 100). -/
def cexMetrics : StrategyMetrics :=
  { sharpe_ratio := 0, win_rate := 200, profit_factor := 1, max_drawdown := 0,
    total_trades := 3 }

/-- Concrete fixture: the default risk configuration of `config.py`. -/
def cRisk : RiskConfig :=
  { max_total_capital := 200, max_position_size := 10, max_daily_loss := 20,
    max_concurrent_positions := 10, max_exposure_pct := 0.2 }

/-- Concrete fixture: a fresh portfolio with 50 of capital. -/
def cPf : StrategyPortfolio :=
  { strategy_name := "s", initial_capital := 50, current_capital := 50 }

/-- Concrete fixture: a trader holding only `cPf` under name "s". -/
def cT : PaperTrader := { risk := cRisk, portfolios := [("s", cPf)] }

/-- Concrete fixture: a yes-side signal for 5 dollars. -/
def cSig : Signal := { strategy_name := "s", market_id := "M", side := "yes", size := 5 }

/-- Concrete fixture: the position `executeSignal cT cSig 0.2 0 "p1"` opens. -/
def cPos : PaperPosition :=
  { id := "p1", strategy_name := "s", market_id := "M", ticker := "M", side := "yes",
    quantity := 25, entry_price := 0.2, entry_time := 0, entry_cost := 5 }

/-- Concrete fixture: a portfolio with only 3 of capital. -/
def cPf3 : StrategyPortfolio :=
  { strategy_name := "s", initial_capital := 3, current_capital := 3 }

/-- Concrete fixture: a trader whose only portfolio has 3 of capital. -/
def cT3 : PaperTrader := { risk := cRisk, portfolios := [("s", cPf3)] }

/-- Concrete fixture: an open position with id "a" and entry cost 5. -/
def cPosOpen : PaperPosition :=
  { id := "a", strategy_name := "s", market_id := "M", ticker := "M", side := "yes",
    quantity := 10, entry_price := 0.5, entry_time := 0, entry_cost := 5 }

/-- Concrete fixture: a trader whose only portfolio holds the open position
`cPosOpen`. -/
def cTOpen : PaperTrader :=
  { risk := cRisk, portfolios := [("s", { cPf with positions := [cPosOpen] })] }

/-- Concrete fixture: `cPosOpen` closed at exit market price 0.6. -/
def cClosedA : PaperPosition := closedVersion cPosOpen 0.6 "signal" 1

/-- Concrete fixture: the portfolio after closing `cPosOpen` at 0.6. -/
def cPf1 : StrategyPortfolio :=
  { cPf with
      current_capital := 51
      positions := []
      closed_positions := [cClosedA] }

/-- Concrete fixture: the trader state after closing `cPosOpen` at 0.6 (pnl 1,
capital 51, daily P&L 1). -/
def cT1 : PaperTrader :=
  { risk := cRisk, portfolios := [("s", cPf1)], daily_pnl := 1 }

/-- Concrete fixture: a market snapshot for market "M" lacking a yes price. -/
def cMd : MarketSnapshot := { market_id := some "M", yes_price := none }

/-- Concrete fixture: a strategy named "s" whose exit predicate always fires. -/
def cStrat : Strategy := { name := "s", should_exit := fun _ _ => true }

/-! ## Theorems -/

/-- C9, counterexample: at `cexMetrics` (win rate 200, three trades) the
source's score differs from the claim's formula, because the source does not
clamp `win_rate / 100` to `[0, 1]`: the code yields 0.42, the claimed formula
0.21. -/
theorem score_formula_cex :
    calculateStrategyScore 0.7 0.3 cexMetrics ≠ scoreClaimFormula 0.7 0.3 cexMetrics := by
  have h1 : calculateStrategyScore 0.7 0.3 cexMetrics = 0.42 := by
    unfold calculateStrategyScore cexMetrics
    norm_num
  have h2 : scoreClaimFormula 0.7 0.3 cexMetrics = 0.21 := by
    unfold scoreClaimFormula clamp cexMetrics
    norm_num
  rw [h1, h2]
  norm_num

/-- C9, amended: `calculate_strategy_score` returns 0 below 3 trades and
otherwise `max 0 (pw * (0.4*clamp(sharpe/2,0,1) + 0.3*(win_rate/100) +
0.3*clamp((profit_factor-1)/2,0,1)) - rw * min 1 (max_drawdown/20))`: the
`win_rate` component is not clamped and the drawdown penalty has no lower
clamp; the result is always nonnegative. -/
theorem score_formula_amended (pw rw : ℚ) (m : StrategyMetrics) :
    calculateStrategyScore pw rw m =
      (if m.total_trades < 3 then 0
       else max 0 (pw *
          (0.4 * clamp (m.sharpe_ratio / 2) 0 1 +
           0.3 * (m.win_rate / 100) +
           0.3 * clamp ((m.profit_factor - 1) / 2) 0 1) -
          rw * min 1 (m.max_drawdown / 20))) ∧
    0 ≤ calculateStrategyScore pw rw m ∧
    (m.total_trades < 3 → calculateStrategyScore pw rw m = 0) := by
  refine ⟨rfl, ?_, ?_⟩
  · unfold calculateStrategyScore
    split
    · exact le_refl 0
    · exact le_max_left 0 _
  · intro h
    simp [calculateStrategyScore, h]

/-- Sum of a constant-valued map over a list. -/
lemma sum_map_const_q {α : Type} (l : List α) (c : ℚ) :
    (l.map (fun _ => c)).sum = (l.length : ℚ) * c := by
  induction l with
  | nil => simp
  | cons a t ih =>
    simp [ih]
    ring

/-- Rescaling every result row multiplies the allocation sum by the factor. -/
lemma sumNewAlloc_map_scale (rs : List AllocationResult) (k : ℚ) :
    sumNewAlloc (rs.map (scaleResult k)) = sumNewAlloc rs * k := by
  induction rs with
  | nil => simp [sumNewAlloc]
  | cons a l ih =>
    simp only [List.map_cons, sumNewAlloc, List.sum_cons, scaleResult] at ih ⊢
    rw [ih]
    ring

/-- The equal-split branch allocates the total capital exactly. -/
lemma sumNewAlloc_equal (rankings : List RankedEntry) (tc : ℚ) (h : rankings ≠ []) :
    sumNewAlloc (equalAllocation rankings tc) = tc := by
  have hne : (rankings.length : ℚ) ≠ 0 := by
    have := List.length_pos.mpr h
    exact_mod_cast Nat.pos_iff_ne_zero.mp this
  have h1 : (equalAllocation rankings tc).map (·.new_allocation) =
      rankings.enum.map (fun _ => tc / (rankings.length : ℚ)) := by
    unfold equalAllocation
    rw [List.map_map]
    rfl
  rw [sumNewAlloc, h1, sum_map_const_q, List.enum_length]
  field_simp

/-- C3: for every ranking input and nonnegative total capital, the allocations
of `calculate_allocations` sum to at most the total capital; and whenever the
pre-normalization sum exceeds the total capital, every row is rescaled by the
same factor `total_capital / total_allocated` and the final sum equals the
total capital exactly. -/
theorem allocations_capped (rankings : List RankedEntry) (total_capital : ℚ)
    (min_trades : ℕ) (h : 0 ≤ total_capital) :
    sumNewAlloc (calculateAllocations rankings total_capital min_trades) ≤ total_capital ∧
    (total_capital <
        sumNewAlloc (proportionalAllocation (qualifiedOf rankings min_trades) total_capital) →
      rankings ≠ [] → qualifiedOf rankings min_trades ≠ [] →
      calculateAllocations rankings total_capital min_trades =
        (proportionalAllocation (qualifiedOf rankings min_trades) total_capital).map
          (scaleResult (total_capital /
            sumNewAlloc (proportionalAllocation (qualifiedOf rankings min_trades) total_capital))) ∧
      sumNewAlloc (calculateAllocations rankings total_capital min_trades) = total_capital) := by
  by_cases hr : rankings = []
  · constructor
    · simp [calculateAllocations, hr, sumNewAlloc]
      exact h
    · intro _ hne
      exact absurd hr hne
  · by_cases hq : qualifiedOf rankings min_trades = []
    · have hcalc : calculateAllocations rankings total_capital min_trades =
          equalAllocation rankings total_capital := by
        unfold calculateAllocations
        rw [if_neg hr, if_pos hq]
      constructor
      · rw [hcalc, sumNewAlloc_equal rankings _ hr]
      · intro _ _ hq2
        exact absurd hq hq2
    · by_cases hlt : total_capital <
          sumNewAlloc (proportionalAllocation (qualifiedOf rankings min_trades) total_capital)
      · have hSpos : 0 <
            sumNewAlloc (proportionalAllocation (qualifiedOf rankings min_trades) total_capital) :=
          lt_of_le_of_lt h hlt
        have hcalc : calculateAllocations rankings total_capital min_trades =
            (proportionalAllocation (qualifiedOf rankings min_trades) total_capital).map
              (scaleResult (total_capital /
                sumNewAlloc (proportionalAllocation (qualifiedOf rankings min_trades) total_capital))) := by
          unfold calculateAllocations
          rw [if_neg hr, if_neg hq, if_pos hlt]
        have hsum : sumNewAlloc (calculateAllocations rankings total_capital min_trades) =
            total_capital := by
          rw [hcalc, sumNewAlloc_map_scale]
          field_simp
        exact ⟨le_of_eq hsum, fun _ _ _ => ⟨hcalc, hsum⟩⟩
      · have hcalc : calculateAllocations rankings total_capital min_trades =
            proportionalAllocation (qualifiedOf rankings min_trades) total_capital := by
          unfold calculateAllocations
          rw [if_neg hr, if_neg hq, if_neg hlt]
        constructor
        · rw [hcalc]
          exact le_of_not_lt hlt
        · intro hlt2
          exact absurd hlt2 hlt

/-- C3, witness: at the example ranking list with total capital 200 the
allocation sum stays at or below 200. -/
theorem allocations_capped_witness :
    (0:ℚ) ≤ 200 ∧ sumNewAlloc (calculateAllocations exRankings 200 5) ≤ 200 :=
  ⟨by norm_num, (allocations_capped exRankings 200 5 (by norm_num)).1⟩

/-- C2, counterexample: at the specification's own rebalance example (scores
[0.6, 0.3, 0], third strategy with 2 trades, total capital 200) the returned
allocations do not sum to 200: the pre-normalization sum 520/3 is below 200,
so no renormalization happens. -/
theorem alloc_example_cex :
    ¬ sumNewAlloc (calculateAllocations exRankings 200 5) = 200 := by
  have h : sumNewAlloc (calculateAllocations exRankings 200 5) = 520/3 := by
    norm_num +decide [calculateAllocations, qualifiedOf, exRankings, proportionalAllocation,
      equalAllocation, sumNewAlloc, scaleResult, List.enum, List.enumFrom]
  rw [h]
  norm_num

/-- C2, amended: the third strategy (score 0, 2 trades) is qualified by the
minimum-trades exception and receives the 20/3 minimum floor with reason
"insufficient_history"; the allocations are [100, 200/3, 20/3], summing to
520/3, which is strictly below 200 (the = 200 normalization never fires
because the pre-normalization sum does not exceed the total capital). -/
theorem alloc_example_amended :
    ({ name := "s3", score := 0, total_trades := 2, current_capital := 0 } : RankedEntry) ∈
      qualifiedOf exRankings 5 ∧
    calculateAllocations exRankings 200 5 =
      [{ strategy_name := "s1", current_capital := 0, new_allocation := 100,
         allocation_change := 100, rank := 1, score := 0.6, reason := "high_performer" },
       { strategy_name := "s2", current_capital := 0, new_allocation := 200/3,
         allocation_change := 200/3, rank := 2, score := 0.3, reason := "moderate_performer" },
       { strategy_name := "s3", current_capital := 0, new_allocation := 20/3,
         allocation_change := 20/3, rank := 3, score := 0, reason := "insufficient_history" }] ∧
    sumNewAlloc (calculateAllocations exRankings 200 5) = 520/3 ∧
    sumNewAlloc (calculateAllocations exRankings 200 5) < 200 := by
  refine ⟨?_, ?_, ?_, ?_⟩ <;>
    norm_num +decide [calculateAllocations, qualifiedOf, exRankings, proportionalAllocation,
      equalAllocation, sumNewAlloc, scaleResult, List.enum, List.enumFrom]

/-- C5: after any finite sequence of `execute_signal` and `close_position`
calls, every portfolio's `available_capital` equals its `current_capital`
minus the sum of `entry_cost` over its open positions (`available_capital` is
derived exactly that way in the source). -/
theorem available_capital_invariant (t : PaperTrader) (ops : List TraderOp) :
    ∀ pr ∈ (runOps t ops).portfolios,
      pr.2.available_capital = pr.2.current_capital -
        ((pr.2.positions.filter (fun p => p.status == PositionStatus.OPEN)).map
          (·.entry_cost)).sum := by
  intro pr _
  rfl

/-- C5, witness: after executing one signal, the only portfolio of the example
trader satisfies the available-capital identity. -/
theorem available_capital_invariant_witness :
    ("s", { cPf with positions := [cPos] }) ∈
      (runOps cT [TraderOp.execOp cSig 0.2 0 "p1"]).portfolios ∧
    ({ cPf with positions := [cPos] } : StrategyPortfolio).available_capital =
      ({ cPf with positions := [cPos] } : StrategyPortfolio).current_capital -
        ((({ cPf with positions := [cPos] } : StrategyPortfolio).positions.filter
          (fun p => p.status == PositionStatus.OPEN)).map (·.entry_cost)).sum := by
  have hmem : ("s", { cPf with positions := [cPos] }) ∈
      (runOps cT [TraderOp.execOp cSig 0.2 0 "p1"]).portfolios := by
    norm_num +decide [runOps, stepOp, executeSignal, checkRiskLimits,
      PaperTrader.getPortfolio, cT, cSig, cPos, cPf, cRisk,
      StrategyPortfolio.available_capital, StrategyPortfolio.total_exposure,
      StrategyPortfolio.open_positions, totalExposureAll, totalOpenCount, pyInt,
      List.find?, updatePortfolio, insertPosition, List.foldl_cons, List.foldl_nil]
  exact ⟨hmem, available_capital_invariant cT _ _ hmem⟩

/-- The population variance of a list of rationals is nonnegative. -/
lemma popVariance_nonneg (l : List ℚ) : 0 ≤ popVariance l := by
  unfold popVariance
  apply div_nonneg
  · apply List.sum_nonneg
    intro x hx
    obtain ⟨r, _, rfl⟩ := List.mem_map.mp hx
    positivity
  · exact_mod_cast Nat.zero_le _

/-- C8: with at least 2 closed trades and positive population standard
deviation σ of the per-trade returns, `_calculate_sharpe` (with the default
risk-free rate 0.05) returns `(μ·2500 - 0.05) / (σ·√2500)`; with fewer than 2
trades or σ = 0 it returns 0. -/
theorem sharpe_formula (trades : List PaperPosition) (initial_capital : ℚ) :
    (2 ≤ trades.length →
      0 < Real.sqrt (popVariance (returnsOf trades initial_capital)) →
      calcSharpe trades initial_capital 0.05 =
        ((meanOf (returnsOf trades initial_capital) : ℝ) * 2500 - 0.05) /
          (Real.sqrt (popVariance (returnsOf trades initial_capital)) * Real.sqrt 2500)) ∧
    ((trades.length < 2 ∨ Real.sqrt (popVariance (returnsOf trades initial_capital)) = 0) →
      calcSharpe trades initial_capital 0.05 = 0) := by
  constructor
  · intro h2 hσ
    have hnot : ¬ trades.length < 2 := by omega
    have hv : 0 < popVariance (returnsOf trades initial_capital) := by
      rcases lt_or_eq_of_le (popVariance_nonneg (returnsOf trades initial_capital)) with h | h
      · exact h
      · exfalso
        rw [← h, Rat.cast_zero, Real.sqrt_zero] at hσ
        exact lt_irrefl 0 hσ
    have hvr : (0:ℝ) < ((popVariance (returnsOf trades initial_capital) : ℚ) : ℝ) := by
      exact_mod_cast hv
    simp only [calcSharpe, if_neg hnot]
    rw [if_pos hv, if_neg (ne_of_gt (Real.sqrt_pos.mpr hvr))]
    norm_num
  · intro h
    rcases h with h2 | hσ
    · simp only [calcSharpe, if_pos h2]
    · by_cases h2 : trades.length < 2
      · simp only [calcSharpe, if_pos h2]
      · have hv : ¬ 0 < popVariance (returnsOf trades initial_capital) := by
          intro hcontra
          have hvr : (0:ℝ) < ((popVariance (returnsOf trades initial_capital) : ℚ) : ℝ) := by
            exact_mod_cast hcontra
          exact absurd hσ (ne_of_gt (Real.sqrt_pos.mpr hvr))
        simp only [calcSharpe, if_neg h2]
        rw [if_neg hv, if_pos rfl]

/-- C8, witness: for the two-trade history [posA, posB] over initial capital
100 the returns are [1/10, -1/25], the variance is 49/10000, σ = 7/100 > 0,
and the Sharpe formula applies. -/
theorem sharpe_formula_witness :
    2 ≤ ([posA, posB] : List PaperPosition).length ∧
    0 < Real.sqrt (popVariance (returnsOf [posA, posB] 100)) ∧
    calcSharpe [posA, posB] 100 0.05 =
      ((meanOf (returnsOf [posA, posB] 100) : ℝ) * 2500 - 0.05) /
        (Real.sqrt (popVariance (returnsOf [posA, posB] 100)) * Real.sqrt 2500) := by
  have hv : popVariance (returnsOf [posA, posB] 100) = 49/10000 := by
    norm_num +decide [popVariance, returnsOf, meanOf, PaperPosition.pnl, posA, posB]
  have hσ : 0 < Real.sqrt (popVariance (returnsOf [posA, posB] 100)) := by
    rw [hv]
    apply Real.sqrt_pos.mpr
    norm_num
  exact ⟨by norm_num, hσ, (sharpe_formula [posA, posB] 100).1 (by norm_num) hσ⟩

/-- A list of nonpositive rationals has nonpositive sum. -/
lemma sum_nonpos_le (l : List ℚ) (h : ∀ x ∈ l, x ≤ 0) : l.sum ≤ 0 := by
  induction l with
  | nil => simp
  | cons a t ih =>
    have ha := h a (List.mem_cons_self a t)
    have ht := ih (fun x hx => h x (List.mem_cons_of_mem a hx))
    simp only [List.sum_cons]
    linarith

/-- A list of nonpositive rationals sums to zero exactly when every element is
zero. -/
lemma sum_nonpos_eq_zero (l : List ℚ) (h : ∀ x ∈ l, x ≤ 0) :
    l.sum = 0 ↔ ∀ x ∈ l, x = 0 := by
  induction l with
  | nil => simp
  | cons a t ih =>
    have ha := h a (List.mem_cons_self a t)
    have ht : ∀ x ∈ t, x ≤ 0 := fun x hx => h x (List.mem_cons_of_mem a hx)
    have hts := sum_nonpos_le t ht
    simp only [List.sum_cons, List.mem_cons]
    constructor
    · intro hsum
      have ha0 : a = 0 := by linarith
      have h0 : t.sum = 0 := by linarith
      intro x hx
      rcases hx with rfl | hx
      · exact ha0
      · exact ((ih ht).mp h0) x hx
    · intro hall
      have ha0 : a = 0 := hall a (Or.inl rfl)
      have h0 : t.sum = 0 := (ih ht).mpr (fun x hx => hall x (Or.inr hx))
      rw [ha0, h0, add_zero]

/-- No trade has strictly negative pnl exactly when every pnl collected into
the losing bucket (pnl ≤ 0) is zero. -/
lemma no_negative_iff (trades : List PaperPosition) :
    (∀ t ∈ trades, ¬ t.pnl < 0) ↔ ∀ x ∈ (lossesOf trades).map (·.pnl), x = 0 := by
  constructor
  · intro hall x hx
    obtain ⟨p, hp, rfl⟩ := List.mem_map.mp hx
    obtain ⟨hpt, hple⟩ := List.mem_filter.mp hp
    have hle : p.pnl ≤ 0 := of_decide_eq_true hple
    exact le_antisymm hle (not_lt.mp (hall p hpt))
  · intro hall t ht hneg
    have hmem : t ∈ lossesOf trades :=
      List.mem_filter.mpr ⟨ht, decide_eq_true (le_of_lt hneg)⟩
    have := hall t.pnl (List.mem_map.mpr ⟨t, hmem, rfl⟩)
    exact absurd this (ne_of_lt hneg)

/-- C1, amended: over a nonempty closed-trade history, `profit_factor` is +∞
exactly when no trade has pnl < 0 (break-even trades land in the losing bucket
but contribute 0 to the gross loss, so +∞ does not require a winning trade);
and the Sortino number is +∞ exactly when there are at least 2 trades and no
trade has a negative per-trade return. -/
theorem profit_factor_sortino_inf (trades : List PaperPosition) (initial_capital : ℚ)
    (_h : trades ≠ []) :
    (profitFactorCalc trades = Pyfloat.inf ↔ ∀ t ∈ trades, ¬ t.pnl < 0) ∧
    (calcSortino trades initial_capital 0.05 = Pyfloat.inf ↔
      2 ≤ trades.length ∧ ∀ t ∈ trades, ¬ t.pnl / initial_capital < 0) := by
  constructor
  · have hle : ∀ x ∈ (lossesOf trades).map (·.pnl), x ≤ 0 := by
      intro x hx
      obtain ⟨p, hp, rfl⟩ := List.mem_map.mp hx
      exact of_decide_eq_true (List.mem_filter.mp hp).2
    unfold profitFactorCalc grossLoss
    by_cases hpos : 0 < |((lossesOf trades).map (·.pnl)).sum|
    · rw [if_pos hpos]
      constructor
      · intro hfin
        exact Pyfloat.noConfusion hfin
      · intro hall
        exfalso
        have h0 : ((lossesOf trades).map (·.pnl)).sum = 0 :=
          (sum_nonpos_eq_zero _ hle).mpr ((no_negative_iff trades).mp hall)
        rw [h0, abs_zero] at hpos
        exact lt_irrefl 0 hpos
    · rw [if_neg hpos]
      have h0 : ((lossesOf trades).map (·.pnl)).sum = 0 :=
        abs_eq_zero.mp (le_antisymm (not_lt.mp hpos) (abs_nonneg _))
      constructor
      · intro _
        exact (no_negative_iff trades).mpr ((sum_nonpos_eq_zero _ hle).mp h0)
      · intro _
        rfl
  · by_cases h2 : trades.length < 2
    · simp only [calcSortino, if_pos h2]
      constructor
      · intro hfin
        exact Pyfloat.noConfusion hfin
      · rintro ⟨hlen, _⟩
        omega
    · simp only [calcSortino, if_neg h2]
      by_cases hneg : (returnsOf trades initial_capital).filter (fun r => decide (r < 0)) = []
      · rw [if_pos hneg]
        constructor
        · intro _
          refine ⟨by omega, ?_⟩
          intro t ht hcontra
          have hm : t.pnl / initial_capital ∈ returnsOf trades initial_capital :=
            List.mem_map.mpr ⟨t, ht, rfl⟩
          have hnn := List.filter_eq_nil_iff.mp hneg _ hm
          simp only [decide_eq_true_eq] at hnn
          exact hnn hcontra
        · intro _
          rfl
      · rw [if_neg hneg]
        constructor
        · intro hif
          split at hif
          · exact Pyfloat.noConfusion hif
          · exact Pyfloat.noConfusion hif
        · rintro ⟨_, hall⟩
          exfalso
          apply hneg
          apply List.filter_eq_nil_iff.mpr
          intro r hr
          obtain ⟨t, ht, rfl⟩ := List.mem_map.mp hr
          simpa using hall t ht

/-- C1, counterexample: a single break-even closed trade (pnl 0) yields
profit_factor = +∞ with zero winning trades and one losing trade, refuting
"+∞ iff at least one winning trade and zero losing trades". -/
theorem profit_factor_inf_cex :
    ¬ (profitFactorCalc [posZero] = Pyfloat.inf ↔
       (1 ≤ (winsOf [posZero]).length ∧ (lossesOf [posZero]).length = 0)) := by
  intro hIff
  have hgl : grossLoss [posZero] = 0 := by
    norm_num +decide [grossLoss, lossesOf, PaperPosition.pnl, posZero]
  have hinf : profitFactorCalc [posZero] = Pyfloat.inf := by
    unfold profitFactorCalc
    rw [hgl]
    norm_num
  have hwin : (winsOf [posZero]).length = 0 := by
    norm_num +decide [winsOf, PaperPosition.pnl, posZero]
  have h1 := (hIff.mp hinf).1
  omega

/-- C1, witness: the two-trade history [posA, posZero] (a win and a
break-even) is nonempty and satisfies both amended equivalences. -/
theorem profit_factor_sortino_inf_witness :
    ([posA, posZero] : List PaperPosition) ≠ [] ∧
    ((profitFactorCalc [posA, posZero] = Pyfloat.inf ↔
        ∀ t ∈ [posA, posZero], ¬ t.pnl < 0) ∧
     (calcSortino [posA, posZero] 100 0.05 = Pyfloat.inf ↔
        2 ≤ ([posA, posZero] : List PaperPosition).length ∧
          ∀ t ∈ [posA, posZero], ¬ t.pnl / 100 < 0)) :=
  ⟨by simp, profit_factor_sortino_inf [posA, posZero] 100 (by simp)⟩

/-- C4: every successful `execute_signal` call produces a position whose
quantity is `⌊size / effective_price⌋` with the effective price flipped for
the "no" side, whose quantity is at least 1 (a floor of 0 or below is
rejected), whose entry price is the effective price and whose entry cost is
exactly `quantity * effective_price`. -/
theorem execute_quantity_floor (t : PaperTrader) (s : Signal) (market_price : ℚ)
    (now : ℕ) (newId : String) (pos : PaperPosition)
    (h : (executeSignal t s market_price now newId).1 = some pos) :
    pos.quantity = ⌊s.size / (if s.side = "yes" then market_price else 1 - market_price)⌋ ∧
    1 ≤ pos.quantity ∧
    pos.entry_price = (if s.side = "yes" then market_price else 1 - market_price) ∧
    pos.entry_cost = (pos.quantity : ℚ) *
      (if s.side = "yes" then market_price else 1 - market_price) := by
  unfold executeSignal at h
  split at h
  · exact absurd h (by simp)
  · split at h
    · exact absurd h (by simp)
    · simp only [] at h
      by_cases hp : (0:ℚ) < (if s.side = "yes" then market_price else 1 - market_price)
      · by_cases hq :
          pyInt (s.size / (if s.side = "yes" then market_price else 1 - market_price)) ≤ 0
        · simp only [if_pos hp, if_pos hq] at h
          exact absurd h (by simp)
        · simp only [if_pos hp, if_neg hq] at h
          simp only [Option.some.injEq] at h
          subst h
          refine ⟨?_, ?_, rfl, rfl⟩
          · show pyInt (s.size / (if s.side = "yes" then market_price else 1 - market_price)) = _
            unfold pyInt
            by_cases h0 : (0:ℚ) ≤ s.size / (if s.side = "yes" then market_price else 1 - market_price)
            · rw [if_pos h0]
            · exfalso
              rw [pyInt, if_neg h0] at hq
              have hceil : 0 < ⌈s.size / (if s.side = "yes" then market_price else 1 - market_price)⌉ := by
                omega
              have : (0:ℚ) < s.size / (if s.side = "yes" then market_price else 1 - market_price) := by
                exact_mod_cast Int.lt_ceil.mp hceil
              exact h0 (le_of_lt this)
          · show 1 ≤ pyInt (s.size / (if s.side = "yes" then market_price else 1 - market_price))
            omega
      · simp only [if_neg hp] at h
        norm_num at h
        exact Option.noConfusion h

/-- C4, witness: executing the 5-dollar yes signal at market price 0.2 opens
the concrete position `cPos` with quantity 25 = ⌊5 / 0.2⌋ and entry cost 5. -/
theorem execute_quantity_floor_witness :
    (executeSignal cT cSig 0.2 0 "p1").1 = some cPos ∧
    (cPos.quantity = ⌊cSig.size / (if cSig.side = "yes" then (0.2:ℚ) else 1 - 0.2)⌋ ∧
     1 ≤ cPos.quantity ∧
     cPos.entry_price = (if cSig.side = "yes" then (0.2:ℚ) else 1 - 0.2) ∧
     cPos.entry_cost = (cPos.quantity : ℚ) * (if cSig.side = "yes" then (0.2:ℚ) else 1 - 0.2)) := by
  have hexec : (executeSignal cT cSig 0.2 0 "p1").1 = some cPos := by
    norm_num +decide [executeSignal, checkRiskLimits, PaperTrader.getPortfolio, cT, cSig, cPos,
      cPf, cRisk, StrategyPortfolio.available_capital, StrategyPortfolio.total_exposure,
      StrategyPortfolio.open_positions, totalExposureAll, totalOpenCount, pyInt,
      List.find?, updatePortfolio]
  exact ⟨hexec, execute_quantity_floor cT cSig 0.2 0 "p1" cPos hexec⟩

/-- `updatePortfolio` leaves the per-portfolio capital map unchanged when the
update function does not touch the capital. -/
lemma updatePortfolio_capitals (ps : List (String × StrategyPortfolio)) (name : String)
    (f : StrategyPortfolio → StrategyPortfolio)
    (hf : ∀ pf, (f pf).current_capital = pf.current_capital) :
    (updatePortfolio ps name f).map (fun pr => (pr.1, pr.2.current_capital)) =
      ps.map (fun pr => (pr.1, pr.2.current_capital)) := by
  induction ps with
  | nil => rfl
  | cons a rest ih =>
    unfold updatePortfolio
    by_cases hn : a.1 = name
    · rw [if_pos hn]
      simp [hf]
    · rw [if_neg hn]
      simp only [List.map_cons, ih]

/-- `execute_signal` either rejects (returning `none` and the unchanged
trader) or returns a position and inserts exactly that position into the
signal strategy's open map. -/
lemma executeSignal_cases (t : PaperTrader) (s : Signal) (mp : ℚ) (now : ℕ) (newId : String) :
    ((executeSignal t s mp now newId).1 = none ∧ (executeSignal t s mp now newId).2 = t) ∨
    (∃ pos, (executeSignal t s mp now newId).1 = some pos ∧
      (executeSignal t s mp now newId).2 = insertPosition t s.strategy_name pos) := by
  unfold executeSignal
  split
  · exact Or.inl ⟨rfl, rfl⟩
  · split
    · exact Or.inl ⟨rfl, rfl⟩
    · dsimp only []
      repeat' split
      all_goals first
        | exact Or.inl ⟨rfl, rfl⟩
        | exact Or.inr ⟨_, rfl, rfl⟩

/-- A failing risk check makes `execute_signal` return `none` with the trader
unchanged. -/
lemma executeSignal_reject (t : PaperTrader) (s : Signal) (mp : ℚ) (now : ℕ)
    (newId : String) (portfolio : StrategyPortfolio) (r : RiskReject)
    (hpf : t.getPortfolio s.strategy_name = some portfolio)
    (hc : checkRiskLimits t s portfolio = some r) :
    executeSignal t s mp now newId = (none, t) := by
  unfold executeSignal
  split
  · rfl
  · next pf2 heq =>
    rw [hpf] at heq
    injection heq with heq
    subst heq
    split
    · rfl
    · next heq2 =>
      rw [hc] at heq2
      exact Option.noConfusion heq2

/-- C7: `execute_signal` never changes any portfolio's `current_capital` or
the daily P&L, succeeding or not; a rejected call leaves the trader state
entirely unchanged; a successful call only inserts the returned position into
the signal strategy's open map; and a signal whose size exceeds the
portfolio's available capital fails the first risk check (reason:
insufficient capital), creating no position and changing nothing. -/
theorem execute_frame (t : PaperTrader) (s : Signal) (market_price : ℚ) (now : ℕ)
    (newId : String) :
    ((executeSignal t s market_price now newId).2.portfolios.map
        (fun pr => (pr.1, pr.2.current_capital)) =
      t.portfolios.map (fun pr => (pr.1, pr.2.current_capital)) ∧
     (executeSignal t s market_price now newId).2.daily_pnl = t.daily_pnl) ∧
    ((executeSignal t s market_price now newId).1 = none →
      (executeSignal t s market_price now newId).2 = t) ∧
    (∀ pos, (executeSignal t s market_price now newId).1 = some pos →
      (executeSignal t s market_price now newId).2 = insertPosition t s.strategy_name pos) ∧
    (∀ portfolio, t.getPortfolio s.strategy_name = some portfolio →
      portfolio.available_capital < s.size →
      checkRiskLimits t s portfolio = some RiskReject.insufficientCapital ∧
      executeSignal t s market_price now newId = (none, t)) := by
  refine ⟨?_, ?_, ?_, ?_⟩
  · rcases executeSignal_cases t s market_price now newId with ⟨_, h2⟩ | ⟨pos, _, h2⟩
    · rw [h2]
      exact ⟨rfl, rfl⟩
    · rw [h2]
      refine ⟨?_, rfl⟩
      dsimp only [insertPosition]
      exact updatePortfolio_capitals _ _ _ (fun pf => rfl)
  · intro hnone
    rcases executeSignal_cases t s market_price now newId with ⟨_, h2⟩ | ⟨pos, h1, _⟩
    · exact h2
    · rw [h1] at hnone
      exact Option.noConfusion hnone
  · intro pos hpos
    rcases executeSignal_cases t s market_price now newId with ⟨h1, _⟩ | ⟨pos2, h1, h2⟩
    · rw [h1] at hpos
      exact Option.noConfusion hpos
    · rw [h1] at hpos
      injection hpos with hp
      rw [← hp]
      exact h2
  · intro portfolio hpf hlt
    have hcc : checkRiskLimits t s portfolio = some RiskReject.insufficientCapital := by
      unfold checkRiskLimits
      rw [if_pos hlt]
    exact ⟨hcc, executeSignal_reject t s market_price now newId portfolio _ hpf hcc⟩

/-- C7, witness: a 5-dollar signal against 3 of available capital is rejected
with the insufficient-capital reason and leaves the trader unchanged. -/
theorem execute_frame_witness :
    cT3.getPortfolio "s" = some cPf3 ∧ cPf3.available_capital < cSig.size ∧
    checkRiskLimits cT3 cSig cPf3 = some RiskReject.insufficientCapital ∧
    executeSignal cT3 cSig 0.2 0 "p1" = (none, cT3) := by
  have hpf : cT3.getPortfolio "s" = some cPf3 := by
    norm_num +decide [PaperTrader.getPortfolio, cT3, List.find?]
  have hlt : cPf3.available_capital < cSig.size := by
    norm_num [cPf3, cSig, StrategyPortfolio.available_capital,
      StrategyPortfolio.total_exposure, StrategyPortfolio.open_positions]
  have h := (execute_frame cT3 cSig 0.2 0 "p1").2.2.2 cPf3 hpf hlt
  exact ⟨hpf, hlt, h.1, h.2⟩

/-- When no portfolio holds the id, the close search loop finds nothing and
rebuilds the portfolio list unchanged. -/
lemma closeLoop_none (ps : List (String × StrategyPortfolio)) (pid : String)
    (ep : ℚ) (reason : String) (now : ℕ)
    (h : ∀ pr ∈ ps, ∀ p ∈ pr.2.positions, p.id ≠ pid) :
    closeLoop ps pid ep reason now = (none, ps) := by
  induction ps with
  | nil => rfl
  | cons a rest ih =>
    obtain ⟨nm, pf⟩ := a
    have hfind : pf.positions.find? (fun p => p.id == pid) = none := by
      apply List.find?_eq_none.mpr
      intro p hp
      simpa using h (nm, pf) (List.mem_cons_self _ _) p hp
    unfold closeLoop
    rw [hfind]
    dsimp only []
    rw [ih (fun pr hpr p hp => h pr (List.mem_cons_of_mem _ hpr) p hp)]

/-- After a successful close with globally unique ids, no portfolio holds the
closed id any longer. -/
lemma closeLoop_success_no_pid (ps : List (String × StrategyPortfolio)) (pid : String)
    (ep : ℚ) (reason : String) (now : ℕ) (pos : PaperPosition)
    (ps2 : List (String × StrategyPortfolio))
    (hnd : (portfolioIds ps).Nodup)
    (h : closeLoop ps pid ep reason now = (some pos, ps2)) :
    ∀ pr ∈ ps2, ∀ p ∈ pr.2.positions, p.id ≠ pid := by
  induction ps generalizing ps2 with
  | nil =>
    exact absurd h (by simp [closeLoop])
  | cons a rest ih =>
    obtain ⟨nm, pf⟩ := a
    have hnd' : ((pf.positions.map (·.id)) ++ portfolioIds rest).Nodup := by
      simpa [portfolioIds] using hnd
    unfold closeLoop at h
    cases hfind : pf.positions.find? (fun p => p.id == pid) with
    | some q =>
      rw [hfind] at h
      dsimp only [] at h
      simp only [Prod.mk.injEq] at h
      obtain ⟨-, h2⟩ := h
      subst h2
      intro pr hpr p hp
      rcases List.mem_cons.mp hpr with rfl | hpr2
      · have hppred := (List.mem_filter.mp hp).2
        simpa using hppred
      · have hqid : q.id = pid := by
          simpa using List.find?_some hfind
        have hpidmem : pid ∈ pf.positions.map (·.id) := by
          rw [← hqid]
          exact List.mem_map_of_mem _ (List.mem_of_find?_eq_some hfind)
        have hdisj := (List.nodup_append.mp hnd').2.2
        intro heq
        have hprest : p.id ∈ portfolioIds rest := by
          unfold portfolioIds
          rw [List.mem_flatten]
          exact ⟨pr.2.positions.map (·.id), List.mem_map_of_mem _ hpr2,
            List.mem_map_of_mem _ hp⟩
        rw [heq] at hprest
        exact hdisj hpidmem hprest
    | none =>
      rw [hfind] at h
      dsimp only [] at h
      simp only [Prod.mk.injEq] at h
      obtain ⟨h1, h2⟩ := h
      subst h2
      have hrec : closeLoop rest pid ep reason now =
          (some pos, (closeLoop rest pid ep reason now).2) := by
        rw [← h1]
      have hrest := ih _ (List.nodup_append.mp hnd').2.1 hrec
      intro pr hpr p hp
      rcases List.mem_cons.mp hpr with rfl | hpr2
      · intro heq
        have := List.find?_eq_none.mp hfind p hp
        simp [heq] at this
      · exact hrest pr hpr2 p hp

/-- C6: closing an id that no portfolio holds (an id never created, or one
already closed and hence deleted from its open map) returns `none` and leaves
the trader — every portfolio's capital, open map and closed list, and the
daily P&L counter — unchanged; and with globally unique position ids a second
close of a just-closed id returns `none` and changes nothing, so a pnl is
never applied twice. -/
theorem close_idempotent (t : PaperTrader) (pid : String) (ep ep2 : ℚ)
    (reason reason2 : String) (now now2 : ℕ) :
    (hasPosition t pid = false → closePosition t pid ep reason now = (none, t)) ∧
    ((positionIds t).Nodup → ∀ pos t1,
      closePosition t pid ep reason now = (some pos, t1) →
      closePosition t1 pid ep2 reason2 now2 = (none, t1)) := by
  constructor
  · intro hhas
    have h : ∀ pr ∈ t.portfolios, ∀ p ∈ pr.2.positions, p.id ≠ pid := by
      intro pr hpr p hp heq
      have htrue : hasPosition t pid = true := by
        unfold hasPosition
        rw [List.any_eq_true]
        refine ⟨pr, hpr, ?_⟩
        rw [List.any_eq_true]
        exact ⟨p, hp, by simp [heq]⟩
      rw [hhas] at htrue
      exact Bool.noConfusion htrue
    unfold closePosition
    rw [closeLoop_none t.portfolios pid ep reason now h]
  · intro hnd pos t1 hcl
    unfold closePosition at hcl
    cases hloop : closeLoop t.portfolios pid ep reason now with
    | mk o ps2 =>
      rw [hloop] at hcl
      cases o with
      | none =>
        dsimp only [] at hcl
        exact absurd hcl (by simp)
      | some q =>
        dsimp only [] at hcl
        simp only [Prod.mk.injEq] at hcl
        obtain ⟨-, hct⟩ := hcl
        have hclean := closeLoop_success_no_pid t.portfolios pid ep reason now q ps2 hnd hloop
        have ht1 : t1.portfolios = ps2 := by
          rw [← hct]
        unfold closePosition
        rw [ht1, closeLoop_none ps2 pid ep2 reason2 now2 hclean]

/-- C6, witness: closing the unknown id "zz" on the example trader returns
`none` and changes nothing; closing the open position "a" succeeds once, and
closing "a" again returns `none` and leaves the post-close state untouched. -/
theorem close_idempotent_witness :
    hasPosition cT "zz" = false ∧
    closePosition cT "zz" 0.5 "signal" 0 = (none, cT) ∧
    (positionIds cTOpen).Nodup ∧
    closePosition cTOpen "a" 0.6 "signal" 1 = (some cClosedA, cT1) ∧
    closePosition cT1 "a" 0.6 "signal" 2 = (none, cT1) := by
  have h1 : hasPosition cT "zz" = false := by
    simp [hasPosition, cT, cPf]
  have h2 := (close_idempotent cT "zz" 0.5 0.5 "signal" "signal" 0 0).1 h1
  have h3 : (positionIds cTOpen).Nodup := by
    simp [positionIds, portfolioIds, cTOpen, cPf, cPosOpen]
  have h4 : closePosition cTOpen "a" 0.6 "signal" 1 = (some cClosedA, cT1) := by
    norm_num +decide [closePosition, closeLoop, closedVersion, PaperPosition.pnl,
      cTOpen, cPosOpen, cPf, cPf1, cT1, cClosedA, cRisk, List.find?, List.filter]
  have h5 := (close_idempotent cTOpen "a" 0.6 0.6 "signal" "signal" 1 2).2 h3 cClosedA cT1 h4
  exact ⟨h1, h2, h3, h4, h5⟩

/-- In a position list with pairwise distinct ids, a member is determined by
its id. -/
lemma eq_of_nodup_ids (l : List PaperPosition) (hnd : (l.map (·.id)).Nodup)
    (p q : PaperPosition) (hp : p ∈ l) (hq : q ∈ l) (he : q.id = p.id) : q = p := by
  induction l with
  | nil => cases hp
  | cons a rest ih =>
    simp only [List.map_cons, List.nodup_cons] at hnd
    rcases List.mem_cons.mp hp with rfl | hp2
    · rcases List.mem_cons.mp hq with rfl | hq2
      · rfl
      · exfalso
        apply hnd.1
        rw [← he]
        exact List.mem_map_of_mem _ hq2
    · rcases List.mem_cons.mp hq with rfl | hq2
      · exfalso
        apply hnd.1
        rw [he]
        exact List.mem_map_of_mem _ hp2
      · exact ih hnd.2 hp2 hq2

/-- Unfolding of `portfolioIds` over a cons cell. -/
lemma portfolioIds_cons (x : String × StrategyPortfolio) (l : List (String × StrategyPortfolio)) :
    portfolioIds (x :: l) = x.2.positions.map (·.id) ++ portfolioIds l := by
  simp [portfolioIds]

/-- The close loop never adds open-position ids: the surviving ids form a
sublist of the original ones. -/
lemma closeLoop_ids_sublist (ps : List (String × StrategyPortfolio)) (pid : String)
    (ep : ℚ) (reason : String) (now : ℕ) :
    (portfolioIds (closeLoop ps pid ep reason now).2).Sublist (portfolioIds ps) := by
  induction ps with
  | nil =>
    simp [closeLoop]
  | cons a rest ih =>
    obtain ⟨nm, pf⟩ := a
    unfold closeLoop
    cases hfind : pf.positions.find? (fun x => x.id == pid) with
    | some q =>
      dsimp only []
      rw [portfolioIds_cons, portfolioIds_cons]
      exact List.Sublist.append (List.Sublist.map _ (List.filter_sublist _))
        (List.Sublist.refl _)
    | none =>
      dsimp only []
      rw [portfolioIds_cons, portfolioIds_cons]
      exact List.Sublist.append (List.Sublist.refl _) ih

/-- The close loop keeps every position whose id differs from the closed one. -/
lemma closeLoop_preserves_other (ps : List (String × StrategyPortfolio)) (pid : String)
    (ep : ℚ) (reason : String) (now : ℕ) (q : PaperPosition)
    (hq : q.id ≠ pid) (hpres : presentIn ps q) :
    presentIn (closeLoop ps pid ep reason now).2 q := by
  induction ps with
  | nil =>
    obtain ⟨pr, hpr, _⟩ := hpres
    cases hpr
  | cons a rest ih =>
    obtain ⟨nm, pf⟩ := a
    unfold closeLoop
    cases hfind : pf.positions.find? (fun x => x.id == pid) with
    | some r0 =>
      dsimp only []
      obtain ⟨pr, hpr, hq_mem⟩ := hpres
      rcases List.mem_cons.mp hpr with rfl | hpr2
      · exact ⟨_, List.mem_cons_self _ _, List.mem_filter.mpr ⟨hq_mem, by simp [hq]⟩⟩
      · exact ⟨pr, List.mem_cons_of_mem _ hpr2, hq_mem⟩
    | none =>
      dsimp only []
      obtain ⟨pr, hpr, hq_mem⟩ := hpres
      rcases List.mem_cons.mp hpr with rfl | hpr2
      · exact ⟨_, List.mem_cons_self _ _, hq_mem⟩
      · obtain ⟨pr2, hpr2m, hq2⟩ := ih ⟨pr, hpr2, hq_mem⟩
        exact ⟨pr2, List.mem_cons_of_mem _ hpr2m, hq2⟩

/-- With globally unique ids, the close loop finds a present position by its
id and returns exactly its closed copy. -/
lemma closeLoop_finds (ps : List (String × StrategyPortfolio)) (pid : String)
    (ep : ℚ) (reason : String) (now : ℕ) (p : PaperPosition)
    (hnd : (portfolioIds ps).Nodup) (hpres : presentIn ps p) (hid : p.id = pid) :
    (closeLoop ps pid ep reason now).1 = some (closedVersion p ep reason now) := by
  induction ps with
  | nil =>
    obtain ⟨pr, hpr, _⟩ := hpres
    cases hpr
  | cons a rest ih =>
    obtain ⟨nm, pf⟩ := a
    have hnd' : ((pf.positions.map (·.id)) ++ portfolioIds rest).Nodup := by
      simpa [portfolioIds] using hnd
    unfold closeLoop
    cases hfind : pf.positions.find? (fun x => x.id == pid) with
    | some q =>
      dsimp only []
      have hq_mem := List.mem_of_find?_eq_some hfind
      have hq_id : q.id = pid := by
        simpa using List.find?_some hfind
      obtain ⟨pr, hpr, hp_mem⟩ := hpres
      rcases List.mem_cons.mp hpr with rfl | hpr2
      · have hqp : q = p := eq_of_nodup_ids pf.positions (List.nodup_append.mp hnd').1
          p q hp_mem hq_mem (by rw [hq_id, hid])
        rw [hqp]
      · exfalso
        have hdisj := (List.nodup_append.mp hnd').2.2
        have h1 : pid ∈ pf.positions.map (·.id) := by
          rw [← hq_id]
          exact List.mem_map_of_mem _ hq_mem
        have h2 : pid ∈ portfolioIds rest := by
          unfold portfolioIds
          rw [List.mem_flatten]
          refine ⟨pr.2.positions.map (·.id), List.mem_map_of_mem _ hpr2, ?_⟩
          rw [← hid]
          exact List.mem_map_of_mem _ hp_mem
        exact hdisj h1 h2
    | none =>
      dsimp only []
      apply ih (List.nodup_append.mp hnd').2.1
      obtain ⟨pr, hpr, hp_mem⟩ := hpres
      rcases List.mem_cons.mp hpr with rfl | hpr2
      · exfalso
        have := List.find?_eq_none.mp hfind p hp_mem
        simp [hid] at this
      · exact ⟨pr, hpr2, hp_mem⟩

/-- `close_position` called on the id of a present position (ids globally
unique) returns exactly its closed copy. -/
lemma closePosition_fst (t : PaperTrader) (p : PaperPosition) (ep : ℚ)
    (reason : String) (now : ℕ)
    (hnd : (positionIds t).Nodup) (hpres : presentIn t.portfolios p) :
    (closePosition t p.id ep reason now).1 = some (closedVersion p ep reason now) := by
  have hfind := closeLoop_finds t.portfolios p.id ep reason now p hnd hpres rfl
  unfold closePosition
  cases hloop : closeLoop t.portfolios p.id ep reason now with
  | mk o ps2 =>
    rw [hloop] at hfind
    dsimp only [] at hfind
    rw [hfind]

/-- `close_position` never adds open positions (the surviving ids are a
sublist of the original ones) and keeps every position with a different id. -/
lemma closePosition_state (t : PaperTrader) (pid : String) (ep : ℚ)
    (reason : String) (now : ℕ) :
    (portfolioIds (closePosition t pid ep reason now).2.portfolios).Sublist (positionIds t) ∧
    ∀ q : PaperPosition, q.id ≠ pid → presentIn t.portfolios q →
      presentIn (closePosition t pid ep reason now).2.portfolios q := by
  have hsub := closeLoop_ids_sublist t.portfolios pid ep reason now
  unfold closePosition
  cases hloop : closeLoop t.portfolios pid ep reason now with
  | mk o ps2 =>
    rw [hloop] at hsub
    dsimp only [] at hsub
    cases o with
    | some q0 =>
      dsimp only []
      refine ⟨hsub, ?_⟩
      intro q hq hpres
      have hkeep := closeLoop_preserves_other t.portfolios pid ep reason now q hq hpres
      rw [hloop] at hkeep
      exact hkeep
    | none =>
      dsimp only []
      exact ⟨List.Sublist.refl _, fun q _ hpres => hpres⟩

/-- One `check_exits` iteration only appends to the collected closed list. -/
lemma exitStep_fst_mono (strategy : Strategy) (md : MarketSnapshot) (now : ℕ)
    (acc : List PaperPosition × PaperTrader) (e : PaperPosition) (q : PaperPosition)
    (hq : q ∈ acc.1) : q ∈ (exitStep strategy md now acc e).1 := by
  unfold exitStep
  split
  · exact hq
  · split
    · cases hcp : closePosition acc.2 e.id (md.yes_price.getD 0.5) "strategy_exit" now with
      | mk o t2 =>
        cases o with
        | some r =>
          exact List.mem_append_left _ hq
        | none =>
          exact hq
    · exact hq

/-- One `check_exits` iteration on a position with a different id keeps a
present position present and keeps the ids duplicate-free. -/
lemma exitStep_preserves (strategy : Strategy) (md : MarketSnapshot) (now : ℕ)
    (acc : List PaperPosition × PaperTrader) (e p : PaperPosition)
    (hne : e.id ≠ p.id) (hpres : presentIn acc.2.portfolios p)
    (hnd : (portfolioIds acc.2.portfolios).Nodup) :
    presentIn (exitStep strategy md now acc e).2.portfolios p ∧
    (portfolioIds (exitStep strategy md now acc e).2.portfolios).Nodup := by
  unfold exitStep
  split
  · exact ⟨hpres, hnd⟩
  · split
    · cases hcp : closePosition acc.2 e.id (md.yes_price.getD 0.5) "strategy_exit" now with
      | mk o t2 =>
        have hstate := closePosition_state acc.2 e.id (md.yes_price.getD 0.5)
          "strategy_exit" now
        rw [hcp] at hstate
        dsimp only [] at hstate
        cases o with
        | some r =>
          exact ⟨hstate.2 p (Ne.symm hne) hpres, List.Nodup.sublist hstate.1 hnd⟩
        | none =>
          exact ⟨hstate.2 p (Ne.symm hne) hpres, List.Nodup.sublist hstate.1 hnd⟩
    · exact ⟨hpres, hnd⟩

/-- The closed copy written for a snapshot without a yes price records the
default effective exit price 1/2 on either side. -/
lemma closedVersion_default_price (p : PaperPosition) (reason : String) (now : ℕ) :
    (closedVersion p ((none : Option ℚ).getD 0.5) reason now).id = p.id ∧
    (closedVersion p ((none : Option ℚ).getD 0.5) reason now).status = PositionStatus.CLOSED ∧
    (closedVersion p ((none : Option ℚ).getD 0.5) reason now).exit_price = some (1/2) := by
  unfold closedVersion
  refine ⟨rfl, rfl, ?_⟩
  dsimp only [Option.getD]
  split <;> norm_num

/-- Fold invariant of the `check_exits` loop: once the target position is
either still present (ids unique, its predicate firing, its market matching)
or already collected, the final collected list holds its closed copy with
exit price 1/2. -/
lemma exitFold_spec (strategy : Strategy) (md : MarketSnapshot) (now : ℕ)
    (p : PaperPosition) (hy : md.yes_price = none)
    (ht : md.market_id = some p.ticker)
    (hex : strategy.should_exit (posView p) md = true) :
    ∀ l : List PaperPosition, (l.map (·.id)).Nodup →
      ∀ acc : List PaperPosition × PaperTrader,
      ((p ∈ l ∧ presentIn acc.2.portfolios p ∧ (portfolioIds acc.2.portfolios).Nodup) ∨
        (∃ q ∈ acc.1, q.id = p.id ∧ q.status = PositionStatus.CLOSED ∧
          q.exit_price = some (1/2))) →
      ∃ q ∈ (l.foldl (exitStep strategy md now) acc).1,
        q.id = p.id ∧ q.status = PositionStatus.CLOSED ∧ q.exit_price = some (1/2) := by
  intro l
  induction l with
  | nil =>
    intro _ acc hcase
    rcases hcase with ⟨hmem, -, -⟩ | hdone
    · cases hmem
    · simpa using hdone
  | cons e rest ih =>
    intro hndl acc hcase
    have hndl2 : (rest.map (·.id)).Nodup := by
      simp only [List.map_cons, List.nodup_cons] at hndl
      exact hndl.2
    rw [List.foldl_cons]
    rcases hcase with ⟨hmem, hpres, hnd⟩ | ⟨q, hq, hQ⟩
    · rcases List.mem_cons.mp hmem with rfl | hmem2
      · cases hcp : closePosition acc.2 p.id (md.yes_price.getD 0.5) "strategy_exit" now with
        | mk o t2 =>
          have hfst := closePosition_fst acc.2 p (md.yes_price.getD 0.5)
            "strategy_exit" now hnd hpres
          rw [hcp] at hfst
          dsimp only [] at hfst
          subst hfst
          have hstep : exitStep strategy md now acc p =
              (acc.1 ++ [closedVersion p (md.yes_price.getD 0.5) "strategy_exit" now], t2) := by
            unfold exitStep
            rw [if_neg (by simp [ht]), if_pos hex, hcp]
          rw [hstep]
          apply ih hndl2 _ (Or.inr ?_)
          refine ⟨closedVersion p (md.yes_price.getD 0.5) "strategy_exit" now,
            List.mem_append_right _ (List.mem_singleton.mpr rfl), ?_⟩
          rw [hy]
          exact closedVersion_default_price p "strategy_exit" now
      · have hne : e.id ≠ p.id := by
          simp only [List.map_cons, List.nodup_cons] at hndl
          intro heq
          exact hndl.1 (heq ▸ List.mem_map_of_mem _ hmem2)
        have hstep := exitStep_preserves strategy md now acc e p hne hpres hnd
        exact ih hndl2 _ (Or.inl ⟨hmem2, hstep.1, hstep.2⟩)
    · have hq2 := exitStep_fst_mono strategy md now acc e q hq
      exact ih hndl2 _ (Or.inr ⟨q, hq2, hQ⟩)

/-- C10: `check_exits` with a market snapshot lacking a "yes_price" entry
still closes every open position of the snapshot's market whose exit
predicate fires, using the default yes price 0.5 — the stored effective exit
price is 1/2 for either side (1 - 0.5 = 0.5), rather than the call failing or
skipping the close.  Position ids are assumed globally unique (they are
uuids in the source). -/
theorem check_exits_default_price (t : PaperTrader) (strategy : Strategy)
    (md : MarketSnapshot) (now : ℕ) (pf : StrategyPortfolio) (p : PaperPosition)
    (hy : md.yes_price = none)
    (hpf : t.getPortfolio strategy.name = some pf)
    (hnd : (positionIds t).Nodup)
    (hp : p ∈ pf.positions) (hopen : p.status = PositionStatus.OPEN)
    (ht : md.market_id = some p.ticker)
    (hex : strategy.should_exit (posView p) md = true) :
    ∃ q ∈ (checkExits t strategy md now).1,
      q.id = p.id ∧ q.status = PositionStatus.CLOSED ∧ q.exit_price = some (1/2) := by
  obtain ⟨pr, hfind, hpr2⟩ := Option.map_eq_some'.mp hpf
  have hpr_mem : pr ∈ t.portfolios := List.mem_of_find?_eq_some hfind
  have hids_pf : (pf.positions.map (·.id)).Nodup := by
    have hblock : (pf.positions.map (·.id)) ∈
        t.portfolios.map (fun x => x.2.positions.map (·.id)) := by
      rw [← hpr2]
      exact List.mem_map_of_mem _ hpr_mem
    have hsub : (pf.positions.map (·.id)).Sublist (positionIds t) := by
      unfold positionIds portfolioIds
      exact List.sublist_flatten_of_mem hblock
    exact List.Nodup.sublist hsub hnd
  have hopen_sub : (pf.open_positions.map (·.id)).Sublist (pf.positions.map (·.id)) :=
    List.Sublist.map _ (List.filter_sublist _)
  unfold checkExits
  rw [hpf]
  dsimp only []
  apply exitFold_spec strategy md now p hy ht hex pf.open_positions
    (List.Nodup.sublist hopen_sub hids_pf) ([], t)
  left
  refine ⟨?_, ?_, hnd⟩
  · exact List.mem_filter.mpr ⟨hp, by simp [hopen]⟩
  · refine ⟨pr, hpr_mem, ?_⟩
    rw [hpr2]
    exact hp

/-- C10, witness: sweeping exits for the example trader with a snapshot that
has no yes price closes the open position "a" at effective price 1/2. -/
theorem check_exits_default_price_witness :
    cMd.yes_price = none ∧
    cTOpen.getPortfolio "s" = some { cPf with positions := [cPosOpen] } ∧
    (positionIds cTOpen).Nodup ∧
    ∃ q ∈ (checkExits cTOpen cStrat cMd 3).1,
      q.id = cPosOpen.id ∧ q.status = PositionStatus.CLOSED ∧ q.exit_price = some (1/2) := by
  have hpf : cTOpen.getPortfolio "s" = some { cPf with positions := [cPosOpen] } := by
    simp [PaperTrader.getPortfolio, cTOpen, List.find?]
  have hnd : (positionIds cTOpen).Nodup := by
    simp [positionIds, portfolioIds, cTOpen, cPf, cPosOpen]
  refine ⟨rfl, hpf, hnd, ?_⟩
  exact check_exits_default_price cTOpen cStrat cMd 3 _ cPosOpen rfl hpf hnd
    (by simp) rfl rfl rfl
